import Mathlib

/-!
# Verification of the encryptest cipher core

A shallow embedding of the password-based XOR message obfuscator:
the SHA-256 key deriver (`deriveKeyBytes`), the repeating-key XOR
transform (`xorEncryptDecrypt`), the legacy rolling-hash key deriver
(`legacyDeriveKeyFromPassword`), and the browser codec primitives the
pipeline composes with (`TextEncoder`, `TextDecoder`, `btoa`, `atob`).

JS strings are modelled as lists of Unicode code points (`List Nat`);
byte sequences as lists of `Nat` below 256.  The browser primitives are
modelled by their WHATWG algorithms: `TextDecoder` in its default
configuration substitutes U+FFFD for invalid sequences (it does not
throw) and removes a leading byte-order mark; `atob` implements
forgiving base64 (ASCII whitespace removed, padding optional).
-/

set_option maxRecDepth 8000

namespace Encryptest

/-! ## Text codec: `TextEncoder` / `TextDecoder` -/

/-- UTF-8 encoding of one code point as performed by `TextEncoder`:
lone surrogates (0xD800-0xDFFF, which cannot arise from a well-formed JS
string but exist as code units) become the replacement character U+FFFD
(bytes EF BF BD).  Div/mod arithmetic replaces the usual shifts and
masks; the two agree on these ranges. -/
def utf8EncodeChar (c : Nat) : List Nat :=
  if c < 0x80 then [c]
  else if c < 0x800 then [0xC0 + c / 64, 0x80 + c % 64]
  else if 0xD800 ≤ c ∧ c < 0xE000 then [0xEF, 0xBF, 0xBD]
  else if c < 0x10000 then [0xE0 + c / 4096, 0x80 + c / 64 % 64, 0x80 + c % 64]
  else [0xF0 + c / 262144, 0x80 + c / 4096 % 64, 0x80 + c / 64 % 64, 0x80 + c % 64]

/-- `new TextEncoder().encode(s)`: UTF-8 bytes of the string. -/
def textEncoderEncode : List Nat → List Nat
  | [] => []
  | c :: rest => utf8EncodeChar c ++ textEncoderEncode rest

/-- Fuel-indexed body of the WHATWG UTF-8 decoder with replacement.
Every step consumes at least one byte and one unit of fuel, so with
fuel at least the list length the fuel never runs out
(`utf8DecodeGo_ge` below); fuel only makes the recursion structural.
Each maximal invalid subpart yields one U+FFFD and decoding continues
at the offending byte.  The boundary adjustments for leads E0/ED/F0/F4
follow the WHATWG utf-8 decoder state machine. -/
def utf8DecodeGo : Nat → List Nat → List Nat
  | _, [] => []
  | 0, _ => []
  | fuel + 1, b :: rest =>
    if b < 0x80 then b :: utf8DecodeGo fuel rest
    else if b < 0xC2 then 0xFFFD :: utf8DecodeGo fuel rest
    else if b < 0xE0 then
      match rest with
      | [] => [0xFFFD]
      | b2 :: rest2 =>
        if 0x80 ≤ b2 ∧ b2 < 0xC0 then
          ((b - 0xC0) * 64 + (b2 - 0x80)) :: utf8DecodeGo fuel rest2
        else 0xFFFD :: utf8DecodeGo fuel rest
    else if b < 0xF0 then
      match rest with
      | [] => [0xFFFD]
      | b2 :: rest2 =>
        if (if b = 0xE0 then 0xA0 else 0x80) ≤ b2 ∧ b2 < (if b = 0xED then 0xA0 else 0xC0) then
          match rest2 with
          | [] => [0xFFFD]
          | b3 :: rest3 =>
            if 0x80 ≤ b3 ∧ b3 < 0xC0 then
              ((b - 0xE0) * 4096 + (b2 - 0x80) * 64 + (b3 - 0x80)) :: utf8DecodeGo fuel rest3
            else 0xFFFD :: utf8DecodeGo fuel rest2
        else 0xFFFD :: utf8DecodeGo fuel rest
    else if b < 0xF5 then
      match rest with
      | [] => [0xFFFD]
      | b2 :: rest2 =>
        if (if b = 0xF0 then 0x90 else 0x80) ≤ b2 ∧ b2 < (if b = 0xF4 then 0x90 else 0xC0) then
          match rest2 with
          | [] => [0xFFFD]
          | b3 :: rest3 =>
            if 0x80 ≤ b3 ∧ b3 < 0xC0 then
              match rest3 with
              | [] => [0xFFFD]
              | b4 :: rest4 =>
                if 0x80 ≤ b4 ∧ b4 < 0xC0 then
                  ((b - 0xF0) * 262144 + (b2 - 0x80) * 4096 + (b3 - 0x80) * 64 + (b4 - 0x80)) ::
                    utf8DecodeGo fuel rest4
                else 0xFFFD :: utf8DecodeGo fuel rest3
            else 0xFFFD :: utf8DecodeGo fuel rest2
        else 0xFFFD :: utf8DecodeGo fuel rest
    else 0xFFFD :: utf8DecodeGo fuel rest

/-- The WHATWG UTF-8 decoder with replacement: the behaviour of
`new TextDecoder().decode` after BOM removal (the default is
`fatal: false`, so malformed input never throws). -/
def utf8DecodeRepl (l : List Nat) : List Nat :=
  utf8DecodeGo l.length l

/-- BOM removal performed by `new TextDecoder()` (default
`ignoreBOM: false`): a leading EF BB BF byte sequence is dropped. -/
def stripBOM (l : List Nat) : List Nat :=
  if l.take 3 = [0xEF, 0xBB, 0xBF] then l.drop 3 else l

/-- `new TextDecoder().decode(bytes)` with the default options. -/
def textDecoderDecode (bytes : List Nat) : List Nat :=
  utf8DecodeRepl (stripBOM bytes)

/-! ## Base64 codec: `btoa` / `atob` -/

/-- ASCII code of the RFC 4648 alphabet character for a sextet. -/
def b64CharOf (n : Nat) : Nat :=
  if n < 26 then 65 + n
  else if n < 52 then 97 + (n - 26)
  else if n < 62 then 48 + (n - 52)
  else if n = 62 then 43
  else 47

/-- Sextet value of an ASCII code, `none` outside the alphabet
(including `=`, code 61). -/
def b64ValOf (ch : Nat) : Option Nat :=
  if 65 ≤ ch ∧ ch ≤ 90 then some (ch - 65)
  else if 97 ≤ ch ∧ ch ≤ 122 then some (26 + (ch - 97))
  else if 48 ≤ ch ∧ ch ≤ 57 then some (52 + (ch - 48))
  else if ch = 43 then some 62
  else if ch = 47 then some 63
  else none

/-- `btoa(String.fromCharCode(...bytes))`: standard padded base64 of a
byte sequence, as a list of ASCII codes (61 is `=`). -/
def btoaBytes : List Nat → List Nat
  | [] => []
  | [b1] => [b64CharOf (b1 / 4), b64CharOf (b1 % 4 * 16), 61, 61]
  | [b1, b2] => [b64CharOf (b1 / 4), b64CharOf (b1 % 4 * 16 + b2 / 16), b64CharOf (b2 % 16 * 4), 61]
  | b1 :: b2 :: b3 :: rest =>
    b64CharOf (b1 / 4) :: b64CharOf (b1 % 4 * 16 + b2 / 16) ::
      b64CharOf (b2 % 16 * 4 + b3 / 64) :: b64CharOf (b3 % 64) :: btoaBytes rest

/-- ASCII whitespace removed by forgiving-base64 decode. -/
def isB64Ws (ch : Nat) : Bool :=
  ch = 9 || ch = 10 || ch = 12 || ch = 13 || ch = 32

/-- Removal of one or two trailing `=` (applied when the whitespace-free
input length is a multiple of four). -/
def stripPad (t : List Nat) : List Nat :=
  if t.getLast? = some 61 then
    if t.dropLast.getLast? = some 61 then t.dropLast.dropLast else t.dropLast
  else t

/-- Map every character to its sextet, failing on any non-alphabet
character. -/
def mapB64Vals : List Nat → Option (List Nat)
  | [] => some []
  | ch :: rest =>
    match b64ValOf ch, mapB64Vals rest with
    | some v, some vs => some (v :: vs)
    | _, _ => none

/-- Reassemble bytes from sextets, four at a time; a final group of two
or three sextets yields one or two bytes, discarding the leftover low
bits (forgiving base64 does not require them to be zero). -/
def sextetsToBytes : List Nat → List Nat
  | s1 :: s2 :: s3 :: s4 :: rest =>
    (s1 * 4 + s2 / 16) :: (s2 % 16 * 16 + s3 / 4) :: (s3 % 4 * 64 + s4) :: sextetsToBytes rest
  | [s1, s2] => [s1 * 4 + s2 / 16]
  | [s1, s2, s3] => [s1 * 4 + s2 / 16, s2 % 16 * 16 + s3 / 4]
  | _ => []

/-- `atob`: the WHATWG forgiving-base64 decode.  `none` models the
`InvalidCharacterError` exception. -/
def atobBytes (s : List Nat) : Option (List Nat) :=
  let t := s.filter (fun ch => !isB64Ws ch)
  let u := if t.length % 4 = 0 then stripPad t else t
  if u.length % 4 = 1 then none
  else
    match mapB64Vals u with
    | none => none
    | some sx => some (sextetsToBytes sx)

/-! ## SHA-256 (`crypto.subtle.digest("SHA-256", ·)`)

FIPS 180-4 over `Nat`, with explicit `% 2^32` where 32-bit overflow
matters.  Right shifts and rotations are expressed with division and
multiplication, which agree with the bit operations on arguments below
`2^32`. -/

/-- Truncation to a 32-bit word. -/
def w32 (n : Nat) : Nat := n % 4294967296

/-- 32-bit right rotation by `n` (for `x < 2^32`). -/
def rotr32 (n x : Nat) : Nat := x % 2 ^ n * 2 ^ (32 - n) + x / 2 ^ n

/-- 32-bit bitwise complement (for `x < 2^32`). -/
def not32 (x : Nat) : Nat := 4294967295 - x

/-- The SHA-256 choice function. -/
def shaCh (e f g : Nat) : Nat := (e &&& f) ^^^ (not32 e &&& g)

/-- The SHA-256 majority function. -/
def shaMaj (a b c : Nat) : Nat := (a &&& b) ^^^ (a &&& c) ^^^ (b &&& c)

/-- Σ0 of the compression function. -/
def bigSigma0 (x : Nat) : Nat := rotr32 2 x ^^^ rotr32 13 x ^^^ rotr32 22 x

/-- Σ1 of the compression function. -/
def bigSigma1 (x : Nat) : Nat := rotr32 6 x ^^^ rotr32 11 x ^^^ rotr32 25 x

/-- σ0 of the message schedule. -/
def smallSigma0 (x : Nat) : Nat := rotr32 7 x ^^^ rotr32 18 x ^^^ x / 2 ^ 3

/-- σ1 of the message schedule. -/
def smallSigma1 (x : Nat) : Nat := rotr32 17 x ^^^ rotr32 19 x ^^^ x / 2 ^ 10

/-- The 64 SHA-256 round constants of FIPS 180-4 (the first 32 bits of
the fractional parts of the cube roots of the first 64 primes), written
in decimal. -/
def shaK : List Nat :=
  [1116352408, 1899447441, 3049323471, 3921009573,
   961987163, 1508970993, 2453635748, 2870763221,
   3624381080, 310598401, 607225278, 1426881987,
   1925078388, 2162078206, 2614888103, 3248222580,
   3835390401, 4022224774, 264347078, 604807628,
   770255983, 1249150122, 1555081692, 1996064986,
   2554220882, 2821834349, 2952996808, 3210313671,
   3336571891, 3584528711, 113926993, 338241895,
   666307205, 773529912, 1294757372, 1396182291,
   1695183700, 1986661051, 2177026350, 2456956037,
   2730485921, 2820302411, 3259730800, 3345764771,
   3516065817, 3600352804, 4094571909, 275423344,
   430227734, 506948616, 659060556, 883997877,
   958139571, 1322822218, 1537002063, 1747873779,
   1955562222, 2024104815, 2227730452, 2361852424,
   2428436474, 2756734187, 3204031479, 3329325298]

/-- The eight-word SHA-256 working state. -/
structure Hash8 where
  a : Nat
  b : Nat
  c : Nat
  d : Nat
  e : Nat
  f : Nat
  g : Nat
  h : Nat
deriving DecidableEq, Repr

/-- The SHA-256 initial hash value of FIPS 180-4 (the first 32 bits of
the fractional parts of the square roots of the first 8 primes), in
decimal. -/
def shaInit : Hash8 :=
  ⟨1779033703, 3144134277,
   1013904242, 2773480762,
   1359893119, 2600822924,
   528734635, 1541459225⟩

/-- Next message-schedule word from the words produced so far. -/
def shaExtendStep (w : List Nat) : Nat :=
  let n := w.length
  w32 (w.getD (n - 16) 0 + smallSigma0 (w.getD (n - 15) 0) +
    w.getD (n - 7) 0 + smallSigma1 (w.getD (n - 2) 0))

/-- Append `k` schedule words. -/
def shaExtendLoop : Nat → List Nat → List Nat
  | 0, w => w
  | k + 1, w => shaExtendLoop k (w ++ [shaExtendStep w])

/-- Extend a 16-word block to the 64-word message schedule. -/
def shaSchedule (block : List Nat) : List Nat := shaExtendLoop 48 block

/-- One SHA-256 round; `kw` is the round constant plus the schedule
word, already reduced mod `2^32`. -/
def shaRound (st : Hash8) (kw : Nat) : Hash8 :=
  let t1 := w32 (st.h + bigSigma1 st.e + shaCh st.e st.f st.g + kw)
  let t2 := w32 (bigSigma0 st.a + shaMaj st.a st.b st.c)
  ⟨w32 (t1 + t2), st.a, st.b, st.c, w32 (st.d + t1), st.e, st.f, st.g⟩

/-- Compress one 16-word block into the running hash. -/
def shaCompressBlock (st0 : Hash8) (block : List Nat) : Hash8 :=
  let st := (List.zipWith (fun k w => w32 (k + w)) shaK (shaSchedule block)).foldl shaRound st0
  ⟨w32 (st0.a + st.a), w32 (st0.b + st.b), w32 (st0.c + st.c), w32 (st0.d + st.d),
   w32 (st0.e + st.e), w32 (st0.f + st.f), w32 (st0.g + st.g), w32 (st0.h + st.h)⟩

/-- Big-endian 8-byte rendering of the message bit length. -/
def lenBytes8 (n : Nat) : List Nat :=
  [n / 2 ^ 56 % 256, n / 2 ^ 48 % 256, n / 2 ^ 40 % 256, n / 2 ^ 32 % 256,
   n / 2 ^ 24 % 256, n / 2 ^ 16 % 256, n / 2 ^ 8 % 256, n % 256]

/-- SHA-256 padding: a 0x80 byte, zeros to 56 mod 64, then the 64-bit
big-endian bit length. -/
def sha256Pad (msg : List Nat) : List Nat :=
  msg ++ 128 :: (List.replicate ((119 - msg.length % 64) % 64) 0 ++ lenBytes8 (msg.length * 8))

/-- Group bytes into big-endian 32-bit words. -/
def bytesToWords : List Nat → List Nat
  | b1 :: b2 :: b3 :: b4 :: rest =>
    (b1 * 16777216 + b2 * 65536 + b3 * 256 + b4) :: bytesToWords rest
  | _ => []

/-- Group words into 16-word blocks. -/
def wordsToBlocks : List Nat → List (List Nat)
  | w0 :: w1 :: w2 :: w3 :: w4 :: w5 :: w6 :: w7 ::
      w8 :: w9 :: w10 :: w11 :: w12 :: w13 :: w14 :: w15 :: rest =>
    [w0, w1, w2, w3, w4, w5, w6, w7, w8, w9, w10, w11, w12, w13, w14, w15] :: wordsToBlocks rest
  | _ => []

/-- Big-endian bytes of a 32-bit word. -/
def wordBytes (w : Nat) : List Nat :=
  [w / 16777216 % 256, w / 65536 % 256, w / 256 % 256, w % 256]

/-- SHA-256 digest (32 bytes) of a byte sequence. -/
def sha256 (msg : List Nat) : List Nat :=
  let fin := (wordsToBlocks (bytesToWords (sha256Pad msg))).foldl shaCompressBlock shaInit
  wordBytes fin.a ++ wordBytes fin.b ++ wordBytes fin.c ++ wordBytes fin.d ++
    wordBytes fin.e ++ wordBytes fin.f ++ wordBytes fin.g ++ wordBytes fin.h

/-! ## The application's cipher pipeline

Translations of the functions of `App.tsx` (both the SHA-256-based and
the legacy rolling-hash lineage).  Only the computation on the message
data is modelled; the surrounding React state updates, timestamps and
the Firestore transport are external collaborators. -/

/-- `deriveKeyBytes` (and the identical method `deriveKeyFromPassword`
of the SHA-256 lineage): SHA-256 digest of the UTF-8 bytes of the
password. -/
def deriveKeyBytes (password : List Nat) : List Nat :=
  sha256 (textEncoderEncode password)

/-- Index-tracking body of `xorEncryptDecrypt`.  `List.getD _ _ 0`
models the JS indexing: for a non-empty key `i % key.length` is always
in range, and for the empty key `key[i % 0]` is `key[NaN]`, i.e.
`undefined`, which `^` coerces to 0. -/
def xorWithKey (key : List Nat) : Nat → List Nat → List Nat
  | _, [] => []
  | i, b :: rest => (b ^^^ key.getD (i % key.length) 0) :: xorWithKey key (i + 1) rest

/-- `xorEncryptDecrypt(data, key)`:
`data.map((byte, index) => byte ^ key[index % key.length])`. -/
def xorEncryptDecrypt (data key : List Nat) : List Nat :=
  xorWithKey key 0 data

/-- The encryption computation of `handleEncrypt` / the encrypt branch
of `handleProcess` (SHA-256 lineage): UTF-8 encode, XOR with the
derived key, base64 encode. -/
def handleEncryptText (text password : List Nat) : List Nat :=
  btoaBytes (xorEncryptDecrypt (textEncoderEncode text) (deriveKeyBytes password))

/-- The decryption computation of `handleDecrypt` / the decrypt branch
of `handleProcess` (SHA-256 lineage): base64 decode, XOR with the
derived key, UTF-8 decode.  `none` models the `catch` branch, reached
exactly when `atob` throws; the non-fatal `TextDecoder` never throws. -/
def handleDecryptText (text password : List Nat) : Option (List Nat) :=
  match atobBytes text with
  | none => none
  | some bytes => some (textDecoderDecode (xorEncryptDecrypt bytes (deriveKeyBytes password)))

/-- The legacy `deriveKeyFromPassword`: rolling multiplicative hash
`hash = (hash * 31 + charCode) % 256` over the password's UTF-16 char
codes, starting from 0. -/
def legacyDeriveKeyFromPassword (password : List Nat) : Nat :=
  password.foldl (fun hash c => (hash * 31 + c) % 256) 0

/-- The legacy encrypt computation (encrypt branch of the legacy
`handleProcess`): every UTF-8 byte XORed with the single-byte key, then
base64. -/
def legacyEncryptText (text password : List Nat) : List Nat :=
  btoaBytes ((textEncoderEncode text).map (fun b => b ^^^ legacyDeriveKeyFromPassword password))

/-- Mode tag of a persisted message. -/
inductive LogMode where
  | encrypt : LogMode
  | decrypt : LogMode
deriving DecidableEq, Repr

/-- The fields of the `ChatLog` record passed to `addDoc` (without the
externally produced `timestamp` and document id). -/
structure ChatRecord where
  sender : List Nat
  password : List Nat
  text : List Nat
  mode : LogMode
deriving DecidableEq, Repr

/-- The legacy `handleProcess` in encrypt mode: the guard
`if (!text || (mode === "encrypt" && (!password || !sender))) return;`
followed by `addDoc` of the record with the redacted password field
`"***"` (char codes 42).  `none` means nothing is stored. -/
def handleProcessEncrypt (sender password text : List Nat) : Option ChatRecord :=
  if text = [] ∨ password = [] ∨ sender = [] then none
  else some ⟨sender, [42, 42, 42], legacyEncryptText text password, LogMode.encrypt⟩

/-- `handleEncrypt` of the SHA-256 lineage: guard
`if (!text || !password || !sender) return;` followed by `addDoc` of
the record whose password field is the empty string. -/
def handleEncryptStore (sender password text : List Nat) : Option ChatRecord :=
  if text = [] ∨ password = [] ∨ sender = [] then none
  else some ⟨sender, [], handleEncryptText text password, LogMode.encrypt⟩

/-- A well-formed JS plaintext string: a sequence of Unicode scalar
values (no lone surrogates, below 0x110000). -/
def ValidScalars (s : List Nat) : Prop :=
  ∀ c ∈ s, c < 0x110000 ∧ ¬(0xD800 ≤ c ∧ c < 0xE000)

instance : DecidablePred ValidScalars := fun s =>
  List.decidableBAll _ s

/-! ## Lemmas: the XOR transform -/

/-- Any position of a list of bytes below 256 reads below 256 under
`getD` with default 0. -/
theorem getD_lt_of_all (l : List Nat) (h : ∀ k ∈ l, k < 256) (j : Nat) :
    l.getD j 0 < 256 := by
  induction l generalizing j with
  | nil => simp [List.getD]
  | cons a t ih =>
    cases j with
    | zero => exact h a (by simp)
    | succ j' => exact ih (fun k hk => h k (by simp [hk])) j'

theorem xorWithKey_length (key : List Nat) (i : Nat) (data : List Nat) :
    (xorWithKey key i data).length = data.length := by
  induction data generalizing i with
  | nil => rfl
  | cons b rest ih => simp [xorWithKey, ih]

theorem xorWithKey_getD (key : List Nat) (i : Nat) (data : List Nat) (j : Nat)
    (hj : j < data.length) :
    (xorWithKey key i data).getD j 0 =
      data.getD j 0 ^^^ key.getD ((i + j) % key.length) 0 := by
  induction data generalizing i j with
  | nil => simp at hj
  | cons b rest ih =>
    cases j with
    | zero => simp [xorWithKey]
    | succ j' =>
      have hstep : i + 1 + j' = i + (j' + 1) := by omega
      simp only [xorWithKey, List.getD_cons_succ]
      rw [ih (i + 1) j' (by simpa using hj), hstep]

theorem xorWithKey_involution (key : List Nat) (i : Nat) (data : List Nat) :
    xorWithKey key i (xorWithKey key i data) = data := by
  induction data generalizing i with
  | nil => rfl
  | cons b rest ih => simp [xorWithKey, Nat.xor_cancel_right, ih]

theorem xorWithKey_lt (key : List Nat) (hk : ∀ k ∈ key, k < 256) (i : Nat)
    (data : List Nat) (hd : ∀ b ∈ data, b < 256) :
    ∀ b ∈ xorWithKey key i data, b < 256 := by
  induction data generalizing i with
  | nil => simp [xorWithKey]
  | cons b rest ih =>
    intro x hx
    simp only [xorWithKey, List.mem_cons] at hx
    rcases hx with h | h
    · subst h
      have hb : b < 2 ^ 8 := hd b (by simp)
      have hkey : key.getD (i % key.length) 0 < 2 ^ 8 :=
        getD_lt_of_all key hk (i % key.length)
      exact Nat.xor_lt_two_pow hb hkey
    · exact ih (i + 1) (fun y hy => hd y (by simp [hy])) x h

/-! ## Lemmas: key derivation -/

theorem legacyFold_lt (l : List Nat) (h : Nat) (hh : h < 256) :
    List.foldl (fun hash c => (hash * 31 + c) % 256) h l < 256 := by
  induction l generalizing h with
  | nil => simpa using hh
  | cons c rest ih => exact ih _ (Nat.mod_lt _ (by omega))

theorem wordBytes_lt (w : Nat) : ∀ b ∈ wordBytes w, b < 256 := by
  intro b hb
  simp only [wordBytes, List.mem_cons, List.not_mem_nil, or_false] at hb
  rcases hb with rfl | rfl | rfl | rfl <;> omega

theorem sha256_length (msg : List Nat) : (sha256 msg).length = 32 := by
  simp [sha256, wordBytes]

theorem sha256_lt (msg : List Nat) : ∀ b ∈ sha256 msg, b < 256 := by
  intro b hb
  simp only [sha256, List.mem_append] at hb
  rcases hb with ((((((h | h) | h) | h) | h) | h) | h) | h <;>
    exact wordBytes_lt _ _ h

theorem deriveKeyBytes_length (password : List Nat) :
    (deriveKeyBytes password).length = 32 :=
  sha256_length _

theorem deriveKeyBytes_lt (password : List Nat) :
    ∀ b ∈ deriveKeyBytes password, b < 256 :=
  sha256_lt _

theorem deriveKeyBytes_ne_nil (password : List Nat) :
    deriveKeyBytes password ≠ [] := by
  intro h
  have := deriveKeyBytes_length password
  rw [h] at this
  simp at this

/-! ## Lemmas: UTF-8 round trip -/

theorem utf8EncodeChar_lt (c : Nat) (hc : c < 0x110000) :
    ∀ b ∈ utf8EncodeChar c, b < 256 := by
  intro b hb
  unfold utf8EncodeChar at hb
  split_ifs at hb <;>
    simp only [List.mem_cons, List.not_mem_nil, or_false] at hb <;>
    omega

theorem textEncoderEncode_lt (s : List Nat) (hs : ∀ c ∈ s, c < 0x110000) :
    ∀ b ∈ textEncoderEncode s, b < 256 := by
  induction s with
  | nil => simp [textEncoderEncode]
  | cons c rest ih =>
    intro b hb
    simp only [textEncoderEncode, List.mem_append] at hb
    rcases hb with h | h
    · exact utf8EncodeChar_lt c (hs c (by simp)) b h
    · exact ih (fun x hx => hs x (by simp [hx])) b h

theorem utf8EncodeChar_length_pos (c : Nat) : 0 < (utf8EncodeChar c).length := by
  unfold utf8EncodeChar
  split_ifs <;> simp

theorem length_le_textEncoderEncode (s : List Nat) :
    s.length ≤ (textEncoderEncode s).length := by
  induction s with
  | nil => simp [textEncoderEncode]
  | cons c rest ih =>
    have := utf8EncodeChar_length_pos c
    simp only [textEncoderEncode, List.length_append, List.length_cons]
    omega

/-- The defining case split of `utf8DecodeGo` on positive fuel and a
non-empty list, as one unfolding equation. -/
theorem utf8DecodeGo_succ_cons (fuel b : Nat) (rest : List Nat) :
    utf8DecodeGo (fuel + 1) (b :: rest) =
    (if b < 0x80 then b :: utf8DecodeGo fuel rest
    else if b < 0xC2 then 0xFFFD :: utf8DecodeGo fuel rest
    else if b < 0xE0 then
      match rest with
      | [] => [0xFFFD]
      | b2 :: rest2 =>
        if 0x80 ≤ b2 ∧ b2 < 0xC0 then
          ((b - 0xC0) * 64 + (b2 - 0x80)) :: utf8DecodeGo fuel rest2
        else 0xFFFD :: utf8DecodeGo fuel rest
    else if b < 0xF0 then
      match rest with
      | [] => [0xFFFD]
      | b2 :: rest2 =>
        if (if b = 0xE0 then 0xA0 else 0x80) ≤ b2 ∧ b2 < (if b = 0xED then 0xA0 else 0xC0) then
          match rest2 with
          | [] => [0xFFFD]
          | b3 :: rest3 =>
            if 0x80 ≤ b3 ∧ b3 < 0xC0 then
              ((b - 0xE0) * 4096 + (b2 - 0x80) * 64 + (b3 - 0x80)) :: utf8DecodeGo fuel rest3
            else 0xFFFD :: utf8DecodeGo fuel rest2
        else 0xFFFD :: utf8DecodeGo fuel rest
    else if b < 0xF5 then
      match rest with
      | [] => [0xFFFD]
      | b2 :: rest2 =>
        if (if b = 0xF0 then 0x90 else 0x80) ≤ b2 ∧ b2 < (if b = 0xF4 then 0x90 else 0xC0) then
          match rest2 with
          | [] => [0xFFFD]
          | b3 :: rest3 =>
            if 0x80 ≤ b3 ∧ b3 < 0xC0 then
              match rest3 with
              | [] => [0xFFFD]
              | b4 :: rest4 =>
                if 0x80 ≤ b4 ∧ b4 < 0xC0 then
                  ((b - 0xF0) * 262144 + (b2 - 0x80) * 4096 + (b3 - 0x80) * 64 + (b4 - 0x80)) ::
                    utf8DecodeGo fuel rest4
                else 0xFFFD :: utf8DecodeGo fuel rest3
            else 0xFFFD :: utf8DecodeGo fuel rest2
        else 0xFFFD :: utf8DecodeGo fuel rest
    else 0xFFFD :: utf8DecodeGo fuel rest) := rfl

/-- Decoding one encoded scalar value consumes exactly its bytes and
one unit of fuel. -/
theorem utf8DecodeGo_encodeChar (c : Nat) (hc1 : c < 0x110000)
    (hc2 : ¬(0xD800 ≤ c ∧ c < 0xE000)) (fuel : Nat) (l : List Nat) :
    utf8DecodeGo (fuel + 1) (utf8EncodeChar c ++ l) = c :: utf8DecodeGo fuel l := by
  unfold utf8EncodeChar
  by_cases h1 : c < 0x80
  · simp only [if_pos h1, List.cons_append, List.nil_append]
    rw [utf8DecodeGo_succ_cons, if_pos h1]
  · by_cases h2 : c < 0x800
    · simp only [if_neg h1, if_pos h2, List.cons_append, List.nil_append]
      rw [utf8DecodeGo_succ_cons]
      rw [if_neg (by omega), if_neg (by omega), if_pos (by omega)]
      simp only []
      rw [if_pos (by constructor <;> omega)]
      congr 1
      omega
    · by_cases h3 : c < 0x10000
      · simp only [if_neg h1, if_neg h2, if_neg hc2, if_pos h3, List.cons_append,
          List.nil_append]
        rw [utf8DecodeGo_succ_cons]
        rw [if_neg (by omega), if_neg (by omega), if_neg (by omega), if_pos (by omega)]
        simp only []
        rw [if_pos (by constructor <;> split_ifs <;> omega)]
        rw [if_pos (by constructor <;> omega)]
        congr 1
        omega
      · simp only [if_neg h1, if_neg h2, if_neg hc2, if_neg h3, List.cons_append,
          List.nil_append]
        rw [utf8DecodeGo_succ_cons]
        rw [if_neg (by omega), if_neg (by omega), if_neg (by omega), if_neg (by omega),
          if_pos (by omega)]
        simp only []
        rw [if_pos (by constructor <;> split_ifs <;> omega)]
        rw [if_pos (by constructor <;> omega)]
        rw [if_pos (by constructor <;> omega)]
        congr 1
        omega

/-- Decoding the encoding of a list of scalar values recovers it, for
any fuel at least the number of characters. -/
theorem utf8DecodeGo_encode (m : List Nat) (hm : ValidScalars m) (fuel : Nat)
    (hf : m.length ≤ fuel) :
    utf8DecodeGo fuel (textEncoderEncode m) = m := by
  induction m generalizing fuel with
  | nil =>
    cases fuel <;> rfl
  | cons c rest ih =>
    have hc := hm c (by simp)
    cases fuel with
    | zero => simp at hf
    | succ f =>
      show utf8DecodeGo (f + 1) (utf8EncodeChar c ++ textEncoderEncode rest) = c :: rest
      rw [utf8DecodeGo_encodeChar c hc.1 hc.2 f (textEncoderEncode rest)]
      rw [ih (fun x hx => hm x (by simp [hx])) f (by simpa using hf)]

theorem utf8DecodeRepl_encode (m : List Nat) (hm : ValidScalars m) :
    utf8DecodeRepl (textEncoderEncode m) = m :=
  utf8DecodeGo_encode m hm _ (length_le_textEncoderEncode m)

theorem stripBOM_eq_self (l : List Nat) (h : l.take 3 ≠ [0xEF, 0xBB, 0xBF]) :
    stripBOM l = l := by
  rw [stripBOM, if_neg h]

/-- The encoding of a string not beginning with U+FEFF never starts
with the BOM byte sequence, so `TextDecoder` BOM removal is the
identity on it. -/
theorem stripBOM_encode (m : List Nat) (hm : ValidScalars m)
    (hbom : m.head? ≠ some 0xFEFF) :
    stripBOM (textEncoderEncode m) = textEncoderEncode m := by
  cases m with
  | nil => rfl
  | cons c rest =>
    have hc := hm c (by simp)
    have hcf : c ≠ 0xFEFF := by
      intro h
      exact hbom (by simp [h])
    apply stripBOM_eq_self
    show (utf8EncodeChar c ++ textEncoderEncode rest).take 3 ≠ _
    unfold utf8EncodeChar
    by_cases h1 : c < 0x80
    · simp only [if_pos h1, List.cons_append, List.nil_append, List.take_cons]
      intro h
      simp at h
      omega
    · by_cases h2 : c < 0x800
      · simp only [if_neg h1, if_pos h2, List.cons_append, List.nil_append, List.take_cons]
        intro h
        simp at h
        omega
      · by_cases hs : 0xD800 ≤ c ∧ c < 0xE000
        · exact absurd hs hc.2
        · by_cases h3 : c < 0x10000
          · simp only [if_neg h1, if_neg h2, if_neg hs, if_pos h3, List.cons_append,
              List.nil_append, List.take_cons]
            intro h
            simp at h
            omega
          · simp only [if_neg h1, if_neg h2, if_neg hs, if_neg h3, List.cons_append,
              List.nil_append, List.take_cons]
            intro h
            simp at h
            omega

theorem textDecoderDecode_encode (m : List Nat) (hm : ValidScalars m)
    (hbom : m.head? ≠ some 0xFEFF) :
    textDecoderDecode (textEncoderEncode m) = m := by
  rw [textDecoderDecode, stripBOM_encode m hm hbom, utf8DecodeRepl_encode m hm]

/-! ## Lemmas: base64 round trip -/

/-- Case analysis in groups of three, matching the chunking of
`btoaBytes`. -/
theorem threeInduction {α : Type} {P : List α → Prop} (h0 : P [])
    (h1 : ∀ a, P [a]) (h2 : ∀ a b, P [a, b])
    (h3 : ∀ a b c t, P t → P (a :: b :: c :: t)) : ∀ l, P l
  | [] => h0
  | [a] => h1 a
  | [a, b] => h2 a b
  | a :: b :: c :: t => h3 a b c t (threeInduction h0 h1 h2 h3 t)

/-- The sextet values `btoaBytes` derives from a byte list, before
mapping them into the alphabet. -/
def sextVals : List Nat → List Nat
  | [] => []
  | [b1] => [b1 / 4, b1 % 4 * 16]
  | [b1, b2] => [b1 / 4, b1 % 4 * 16 + b2 / 16, b2 % 16 * 4]
  | b1 :: b2 :: b3 :: rest =>
    b1 / 4 :: (b1 % 4 * 16 + b2 / 16) :: (b2 % 16 * 4 + b3 / 64) :: b3 % 64 :: sextVals rest

/-- The padding characters `btoaBytes` appends. -/
def padCodes (bs : List Nat) : List Nat :=
  if bs.length % 3 = 1 then [61, 61] else if bs.length % 3 = 2 then [61] else []

theorem padCodes_cons3 (a b c : Nat) (t : List Nat) :
    padCodes (a :: b :: c :: t) = padCodes t := by
  have hlen : (a :: b :: c :: t).length % 3 = t.length % 3 := by
    simp only [List.length_cons]
    omega
  simp only [padCodes, hlen]

theorem btoaBytes_eq (bs : List Nat) :
    btoaBytes bs = (sextVals bs).map b64CharOf ++ padCodes bs := by
  induction bs using threeInduction with
  | h0 => rfl
  | h1 a => rfl
  | h2 a b => rfl
  | h3 a b c t ih => simp [btoaBytes, sextVals, padCodes_cons3, ih]

theorem b64ValOf_b64CharOf : ∀ n, n < 64 → b64ValOf (b64CharOf n) = some n := by decide

theorem isB64Ws_b64CharOf : ∀ n, n < 64 → isB64Ws (b64CharOf n) = false := by decide

theorem b64CharOf_ne_pad : ∀ n, n < 64 → b64CharOf n ≠ 61 := by decide

theorem sextVals_lt (bs : List Nat) (hb : ∀ b ∈ bs, b < 256) :
    ∀ s ∈ sextVals bs, s < 64 := by
  revert hb
  induction bs using threeInduction with
  | h0 => intro _ s hs; simp [sextVals] at hs
  | h1 a =>
    intro hb s hs
    have ha := hb a (by simp)
    simp only [sextVals, List.mem_cons, List.not_mem_nil, or_false] at hs
    rcases hs with rfl | rfl <;> omega
  | h2 a b =>
    intro hb s hs
    have ha := hb a (by simp)
    have hb2 := hb b (by simp)
    simp only [sextVals, List.mem_cons, List.not_mem_nil, or_false] at hs
    rcases hs with rfl | rfl | rfl <;> omega
  | h3 a b c t ih =>
    intro hb s hs
    have ha := hb a (by simp)
    have hb2 := hb b (by simp)
    have hc := hb c (by simp)
    simp only [sextVals, List.mem_cons] at hs
    rcases hs with rfl | rfl | rfl | rfl | hs
    · omega
    · omega
    · omega
    · omega
    · exact ih (fun x hx => hb x (by simp [hx])) s hs

theorem mapB64Vals_map (l : List Nat) (h : ∀ s ∈ l, s < 64) :
    mapB64Vals (l.map b64CharOf) = some l := by
  induction l with
  | nil => rfl
  | cons s rest ih =>
    have hs := b64ValOf_b64CharOf s (h s (by simp))
    have hr := ih (fun x hx => h x (by simp [hx]))
    simp [mapB64Vals, hs, hr]

theorem sextetsToBytes_sextVals (bs : List Nat) (hb : ∀ b ∈ bs, b < 256) :
    sextetsToBytes (sextVals bs) = bs := by
  revert hb
  induction bs using threeInduction with
  | h0 => intro _; rfl
  | h1 a =>
    intro hb
    have ha := hb a (by simp)
    simp only [sextVals, sextetsToBytes, List.cons.injEq, and_true]
    omega
  | h2 a b =>
    intro hb
    have ha := hb a (by simp)
    have hb2 := hb b (by simp)
    simp only [sextVals, sextetsToBytes, List.cons.injEq, and_true]
    constructor <;> omega
  | h3 a b c t ih =>
    intro hb
    have ha := hb a (by simp)
    have hb2 := hb b (by simp)
    have hc := hb c (by simp)
    have ht := ih (fun x hx => hb x (by simp [hx]))
    simp only [sextVals, sextetsToBytes, List.cons.injEq, ht, and_true]
    refine ⟨by omega, by omega, by omega⟩

theorem sextVals_length_mod (bs : List Nat) :
    ((sextVals bs).length + (padCodes bs).length) % 4 = 0 ∧
      (sextVals bs).length % 4 ≠ 1 := by
  induction bs using threeInduction with
  | h0 => simp [sextVals, padCodes]
  | h1 a => simp [sextVals, padCodes]
  | h2 a b => simp [sextVals, padCodes]
  | h3 a b c t ih =>
    rw [padCodes_cons3]
    simp only [sextVals, List.length_cons]
    omega

theorem getLast?_mem_self {l : List Nat} {a : Nat} (h : l.getLast? = some a) : a ∈ l := by
  obtain ⟨hne, rfl⟩ := List.mem_getLast?_eq_getLast (Option.mem_def.mpr h)
  exact List.getLast_mem hne

theorem stripPad_no_pad (xs : List Nat) (h : ∀ x ∈ xs, x ≠ 61) : stripPad xs = xs := by
  rw [stripPad, if_neg]
  intro hc
  exact h _ (getLast?_mem_self hc) rfl

theorem stripPad_one (xs : List Nat) (h : ∀ x ∈ xs, x ≠ 61) :
    stripPad (xs ++ [61]) = xs := by
  have hdrop : (xs ++ [61]).dropLast = xs := by simp
  rw [stripPad, if_pos (by simp), hdrop, if_neg]
  intro hc
  exact h _ (getLast?_mem_self hc) rfl

theorem stripPad_two (xs : List Nat) (_h : ∀ x ∈ xs, x ≠ 61) :
    stripPad (xs ++ [61, 61]) = xs := by
  have hx : xs ++ [61, 61] = (xs ++ [61]) ++ [61] := by simp
  have hdrop : ((xs ++ [61]) ++ [61]).dropLast = xs ++ [61] := by simp
  rw [hx, stripPad, if_pos (by simp), hdrop, if_pos (by simp)]
  simp

theorem sextCodes_ne_pad (bs : List Nat) (hb : ∀ b ∈ bs, b < 256) :
    ∀ x ∈ (sextVals bs).map b64CharOf, x ≠ 61 := by
  intro x hx
  obtain ⟨s, hs, rfl⟩ := List.mem_map.mp hx
  exact b64CharOf_ne_pad s (sextVals_lt bs hb s hs)

theorem stripPad_sextPad (bs : List Nat) (hb : ∀ b ∈ bs, b < 256) :
    stripPad ((sextVals bs).map b64CharOf ++ padCodes bs) = (sextVals bs).map b64CharOf := by
  have hne := sextCodes_ne_pad bs hb
  unfold padCodes
  split_ifs with h1 h2
  · exact stripPad_two _ hne
  · exact stripPad_one _ hne
  · rw [List.append_nil]
    exact stripPad_no_pad _ hne

theorem filter_btoa (bs : List Nat) (hb : ∀ b ∈ bs, b < 256) :
    ((sextVals bs).map b64CharOf ++ padCodes bs).filter (fun ch => !isB64Ws ch) =
      (sextVals bs).map b64CharOf ++ padCodes bs := by
  apply List.filter_eq_self.mpr
  intro a ha
  rcases List.mem_append.mp ha with h | h
  · obtain ⟨s, hs, rfl⟩ := List.mem_map.mp h
    simp [isB64Ws_b64CharOf s (sextVals_lt bs hb s hs)]
  · have ha61 : a = 61 := by
      unfold padCodes at h
      split_ifs at h <;> simp at h <;> omega
    subst ha61
    rfl

/-- `atob` inverts `btoa` on every byte sequence. -/
theorem atobBytes_btoaBytes (bs : List Nat) (hb : ∀ b ∈ bs, b < 256) :
    atobBytes (btoaBytes bs) = some bs := by
  have h2 := stripPad_sextPad bs hb
  have h3 := (sextVals_length_mod bs).1
  have h4 := (sextVals_length_mod bs).2
  have h5 := mapB64Vals_map (sextVals bs) (sextVals_lt bs hb)
  have h6 := sextetsToBytes_sextVals bs hb
  have hcond : ((sextVals bs).map b64CharOf ++ padCodes bs).length % 4 = 0 := by
    simp only [List.length_append, List.length_map]
    omega
  have hcond2 : ¬((sextVals bs).map b64CharOf).length % 4 = 1 := by
    simp only [List.length_map]
    omega
  rw [btoaBytes_eq bs]
  unfold atobBytes
  simp only [filter_btoa bs hb]
  rw [if_pos hcond, h2, if_neg hcond2, h5]
  simp only [h6]

/-! ## Further helper lemmas for the claim theorems -/

theorem xorWithKey_nil (i : Nat) (data : List Nat) : xorWithKey [] i data = data := by
  induction data generalizing i with
  | nil => rfl
  | cons b rest ih => simp [xorWithKey, ih]

/-! ## Claim theorems -/

/-- C1 (counterexample): the round trip is not the identity on every
plaintext.  For the plaintext consisting of the single character U+FEFF
and the empty password, decrypting the encryption yields the empty
string, because the default `TextDecoder` removes a leading byte-order
mark. -/
theorem C1_counterexample :
    handleDecryptText (handleEncryptText [0xFEFF] []) [] = some [] ∧
      handleDecryptText (handleEncryptText [0xFEFF] []) [] ≠ some [0xFEFF] := by
  constructor <;> decide

/-- C1 (amended): for every password `p` (any code-point sequence,
including empty and non-ASCII) and every plaintext `m` that is a
sequence of Unicode scalar values not beginning with U+FEFF,
`decryptMessage (encryptMessage m p) p = m`.  (A leading U+FEFF is
stripped by the decoder's BOM handling, the one exception.) -/
theorem C1_roundTrip (p m : List Nat) (hm : ValidScalars m)
    (hbom : m.head? ≠ some 0xFEFF) :
    handleDecryptText (handleEncryptText m p) p = some m := by
  have hkey := deriveKeyBytes_lt p
  have henc := textEncoderEncode_lt m (fun c hc => (hm c hc).1)
  have hxor : ∀ b ∈ xorEncryptDecrypt (textEncoderEncode m) (deriveKeyBytes p), b < 256 :=
    xorWithKey_lt (deriveKeyBytes p) hkey 0 (textEncoderEncode m) henc
  unfold handleEncryptText handleDecryptText
  rw [atobBytes_btoaBytes _ hxor]
  simp only []
  rw [show xorEncryptDecrypt (xorEncryptDecrypt (textEncoderEncode m) (deriveKeyBytes p))
        (deriveKeyBytes p) = textEncoderEncode m from
      xorWithKey_involution (deriveKeyBytes p) 0 (textEncoderEncode m)]
  rw [textDecoderDecode_encode m hm hbom]

/-- C1 (witness): the spec's concrete vector, plaintext `"hi"` under
password `"secret"`, round trips. -/
theorem C1_roundTrip_witness :
    handleDecryptText (handleEncryptText [104, 105] [115, 101, 99, 114, 101, 116])
      [115, 101, 99, 114, 101, 116] = some [104, 105] :=
  C1_roundTrip [115, 101, 99, 114, 101, 116] [104, 105] (by decide) (by decide)

/-- C2: for every data sequence and every key of length at least one,
the XOR transform preserves length and byte `i` of the output is
`data[i] XOR key[i mod key.length]`. -/
theorem C2_xor_spec (data key : List Nat) (_hkey : 1 ≤ key.length) :
    (xorEncryptDecrypt data key).length = data.length ∧
      ∀ i, i < data.length →
        (xorEncryptDecrypt data key).getD i 0 =
          (data.getD i 0) ^^^ key.getD (i % key.length) 0 := by
  constructor
  · exact xorWithKey_length key 0 data
  · intro i hi
    have := xorWithKey_getD key 0 data i hi
    simpa using this

/-- C2 (witness): the specification evaluated on `data = [1, 250]`,
`key = [7]`. -/
theorem C2_xor_spec_witness :
    (xorEncryptDecrypt [1, 250] [7]).length = 2 ∧
      (xorEncryptDecrypt [1, 250] [7]).getD 1 0 =
        ([1, 250].getD 1 0) ^^^ [7].getD (1 % [7].length) 0 :=
  ⟨(C2_xor_spec [1, 250] [7] (by decide)).1,
   (C2_xor_spec [1, 250] [7] (by decide)).2 1 (by decide)⟩

/-- C3: the XOR transform is an involution for every key of length at
least one. -/
theorem C3_involution (data key : List Nat) (_hkey : 1 ≤ key.length) :
    xorEncryptDecrypt (xorEncryptDecrypt data key) key = data :=
  xorWithKey_involution key 0 data

/-- C3 (witness): the involution evaluated on `data = [5, 6, 7]`,
`key = [1, 2]`. -/
theorem C3_involution_witness :
    xorEncryptDecrypt (xorEncryptDecrypt [5, 6, 7] [1, 2]) [1, 2] = [5, 6, 7] :=
  C3_involution [5, 6, 7] [1, 2] (by decide)

/-- C4: key derivation returns exactly 32 bytes — the SHA-256 digest of
the UTF-8 encoding of the password — for every string input, including
the empty string; it is a total function (it cannot fail). -/
theorem C4_deriveKeyBytes_spec (password : List Nat) :
    (deriveKeyBytes password).length = 32 ∧ ∀ b ∈ deriveKeyBytes password, b < 256 :=
  ⟨deriveKeyBytes_length password, deriveKeyBytes_lt password⟩

/-- C5 (code evaluation at the failing input): decrypting `"NQ=="`
(valid base64 of the byte 0x35) with password `"a"` XOR-decodes to the
byte 0xFF, which is not valid UTF-8 — yet the code returns the
one-character string U+FFFD instead of failing, because the default
`TextDecoder` is non-fatal.  The claimed InvalidText failure cannot
occur. -/
theorem C5_invalidText_eval :
    handleDecryptText [78, 81, 61, 61] [97] = some [0xFFFD] := by
  decide

/-- C6 (counterexample): the transform applied with an empty key does
not fail; it silently returns the data unchanged (`key[i % 0]` is
`undefined` in JS and `x ^ undefined` is `x`). -/
theorem C6_counterexample : xorEncryptDecrypt [1, 2, 3] [] = [1, 2, 3] := by
  decide

/-- C6 (amended): for every byte sequence, the transform with an empty
key returns the data unchanged; no InvalidKey check exists in the
code. -/
theorem C6_empty_key (data : List Nat) : xorEncryptDecrypt data [] = data :=
  xorWithKey_nil 0 data

/-- C7 (counterexample): `"QQ"` is not valid *padded* base64 (length 2
mod 4), yet decryption succeeds rather than raising InvalidEncoding,
because `atob` implements forgiving base64 and accepts unpadded
input. -/
theorem C7_counterexample :
    handleDecryptText [81, 81] [97] = some [0xFFFD] ∧
      handleDecryptText [81, 81] [97] ≠ none := by
  constructor <;> decide

/-- C7 (amended): decryption fails with InvalidEncoding for inputs
rejected by forgiving base64 — in particular
`decryptMessage("not-base64!!", p)` fails for every password `p` — but
merely unpadded inputs such as `"QQ"` are accepted and decryption
returns a string for every password. -/
theorem C7_invalidEncoding :
    (∀ p, handleDecryptText [110, 111, 116, 45, 98, 97, 115, 101, 54, 52, 33, 33] p = none) ∧
      (∀ p, (handleDecryptText [81, 81] p).isSome = true) := by
  constructor
  · intro p
    unfold handleDecryptText
    rw [show atobBytes [110, 111, 116, 45, 98, 97, 115, 101, 54, 52, 33, 33] = none
        from by decide]
  · intro p
    unfold handleDecryptText
    rw [show atobBytes [81, 81] = some [65] from by decide]
    rfl

/-- C8: the record persisted by an encryption never contains the real
password: its password field is a constant (the redaction placeholder
`"***"` in the legacy `handleProcess`, the empty string in the SHA-256
`handleEncrypt`), hence identical across any two encryptions with
different passwords. -/
theorem C8_password_redaction (s p₁ p₂ t : List Nat) (hs : s ≠ []) (hp₁ : p₁ ≠ [])
    (hp₂ : p₂ ≠ []) (ht : t ≠ []) :
    ((handleProcessEncrypt s p₁ t).map ChatRecord.password = some [42, 42, 42] ∧
       (handleProcessEncrypt s p₁ t).map ChatRecord.password =
         (handleProcessEncrypt s p₂ t).map ChatRecord.password) ∧
      ((handleEncryptStore s p₁ t).map ChatRecord.password = some [] ∧
       (handleEncryptStore s p₁ t).map ChatRecord.password =
         (handleEncryptStore s p₂ t).map ChatRecord.password) := by
  simp [handleProcessEncrypt, handleEncryptStore, hs, hp₁, hp₂, ht]

/-- C8 (witness): two encryptions of `"hi"` by sender `"a"` under the
distinct passwords `"x"` and `"y"` store identical password fields. -/
theorem C8_password_redaction_witness :
    ((handleProcessEncrypt [97] [120] [104, 105]).map ChatRecord.password =
        some [42, 42, 42] ∧
      (handleProcessEncrypt [97] [120] [104, 105]).map ChatRecord.password =
        (handleProcessEncrypt [97] [121] [104, 105]).map ChatRecord.password) ∧
    ((handleEncryptStore [97] [120] [104, 105]).map ChatRecord.password = some [] ∧
      (handleEncryptStore [97] [120] [104, 105]).map ChatRecord.password =
        (handleEncryptStore [97] [121] [104, 105]).map ChatRecord.password) :=
  C8_password_redaction [97] [120] [121] [104, 105]
    (by decide) (by decide) (by decide) (by decide)

/-- C9: the legacy key derivation is the rolling multiplicative hash
`hash = (hash * 31 + charCode) % 256` folded over the password's char
codes from 0, and its result is always below 256, so at most 256
distinct keys exist. -/
theorem C9_legacy_derive (p : List Nat) :
    legacyDeriveKeyFromPassword p =
        p.foldl (fun hash c => (hash * 31 + c) % 256) 0 ∧
      legacyDeriveKeyFromPassword p < 256 :=
  ⟨rfl, legacyFold_lt p 0 (by omega)⟩

/-- C10 (counterexample): with an empty password the legacy
`handleProcess` stores nothing at all — its guard returns before
`addDoc` — so no record with the unobfuscated base64 text is
persisted. -/
theorem C10_counterexample : handleProcessEncrypt [97] [] [104] = none := by
  decide

/-- C10 (amended): the legacy derivation maps the empty password to
key 0, and XOR with 0 is the identity, so the legacy encryption
computation on an empty password yields exactly the base64 of the raw
UTF-8 bytes; but `handleProcess` rejects empty passwords before
storing, so such a record is never persisted by it. -/
theorem C10_empty_password :
    legacyDeriveKeyFromPassword [] = 0 ∧
      (∀ m, legacyEncryptText m [] = btoaBytes (textEncoderEncode m)) ∧
      (∀ s t, handleProcessEncrypt s [] t = none) := by
  refine ⟨rfl, ?_, ?_⟩
  · intro m
    simp [legacyEncryptText, legacyDeriveKeyFromPassword]
  · intro s t
    unfold handleProcessEncrypt
    rw [if_pos (by simp)]

end Encryptest
